import Mathlib

/-!
Verification development for the Instagram post-ownership demo.

The JavaScript source is shallowly embedded here:
* strings are modelled as `List Char` (lifted to `String` at the interfaces),
* JavaScript values flowing through the proof-aggregation pipeline are
  modelled by the `Json` inductive type together with JavaScript-style
  truthiness and property access,
* `JSON.parse` is modelled by the executable fuel-based parser `Json.parse`
  (an exception becomes `none`); JSON numbers are modelled as integers,
* the asynchronous popup verification flow is modelled as a pure function
  from a state and an environment (popup behaviour, remote results,
  callback outcome) to a new state together with the ordered trace of the
  performed external steps.
-/

/-- Character class of the regex token `[A-Za-z0-9_-]` used by
`extractMediaCode`. -/
def tokenChar (c : Char) : Bool := c.isAlphanum || c = '_' || c = '-'

/-- Boolean test that `pre` is a leading segment of `s` (character by
character). -/
def hasPref : List Char → List Char → Bool
  | [], _ => true
  | _ :: _, [] => false
  | p :: ps, c :: cs => p = c && hasPref ps cs

/-- Boolean substring test, modelling JavaScript `String.prototype.includes`. -/
def hasSub (pat : List Char) : List Char → Bool
  | [] => pat.isEmpty
  | c :: cs => hasPref pat (c :: cs) || hasSub pat cs

/-- Remove the leading segment `pre` from `s`, or fail. -/
def dropPref : List Char → List Char → Option (List Char)
  | [], s => some s
  | _ :: _, [] => none
  | p :: ps, c :: cs => if p = c then dropPref ps cs else none

/-- Boolean suffix test, modelling JavaScript `String.prototype.endsWith`. -/
def endsWithL (suf s : List Char) : Bool := hasPref suf.reverse s.reverse

/-- Drop leading whitespace (one half of JavaScript `trim`). -/
def trimL (s : List Char) : List Char := s.dropWhile Char.isWhitespace

/-- Drop trailing whitespace (the other half of JavaScript `trim`). -/
def trimR (s : List Char) : List Char := (s.reverse.dropWhile Char.isWhitespace).reverse

/-- Model of JavaScript `String.prototype.trim` on character lists. -/
def trimList (s : List Char) : List Char := trimR (trimL s)

/-- JavaScript values as they occur in the proof-aggregation pipeline.
Numbers are modelled as integers (fractional JSON numbers are outside the
scope of this model); `null` also stands for `undefined` where only
truthiness and property access matter. -/
inductive Json where
  | null : Json
  | bool : Bool → Json
  | num : Int → Json
  | str : String → Json
  | arr : List Json → Json
  | obj : List (String × Json) → Json

/-- Property lookup in an object literal: later duplicate keys override
earlier ones, as `JSON.parse` does. -/
def jsonLookup (k : String) : List (String × Json) → Option Json
  | [] => none
  | (k2, v) :: rest =>
    match jsonLookup k rest with
    | some v2 => some v2
    | none => if k2 = k then some v else none

/-- JavaScript property access `v.k` (`none` stands for `undefined`). -/
def Json.getField : Json → String → Option Json
  | .obj fs, k => jsonLookup k fs
  | _, _ => none

/-- JavaScript indexed access `v[i]`; on a plain object it reads the
stringified-index property, as JavaScript does. -/
def Json.getIndex : Json → Nat → Option Json
  | .arr xs, i => xs.get? i
  | .obj fs, i => jsonLookup (toString i) fs
  | _, _ => none

/-- JavaScript truthiness of a value. -/
def Json.truthy : Json → Bool
  | .null => false
  | .bool b => b
  | .num n => n != 0
  | .str s => s != ""
  | .arr _ => true
  | .obj _ => true

/-- Whether a value is a string (JavaScript `typeof v === "string"`). -/
def Json.isStr : Json → Bool
  | .str _ => true
  | _ => false

/-- JSON whitespace test used by the parser. -/
def jsonWs (c : Char) : Bool := c = ' ' || c = '\t' || c = '\n' || c = '\r'

/-- Skip JSON whitespace. -/
def skipWs (s : List Char) : List Char := s.dropWhile jsonWs

/-- Value of a hexadecimal digit. -/
def hexVal (c : Char) : Option Nat :=
  if c.isDigit then some (c.toNat - 48)
  else if 'a' ≤ c ∧ c ≤ 'f' then some (c.toNat - 87)
  else if 'A' ≤ c ∧ c ≤ 'F' then some (c.toNat - 55)
  else none

/-- Decimal digit run to a natural number. -/
def digitsToNat (ds : List Char) : Nat := ds.foldl (fun a c => a * 10 + (c.toNat - 48)) 0

/-- Parse the body of a JSON string literal (after the opening quote),
returning the decoded characters and the input after the closing quote. -/
def parseStrBody : Nat → List Char → Option (List Char × List Char)
  | 0, _ => none
  | _ + 1, [] => none
  | fuel + 1, c :: rest =>
    if c = '"' then some ([], rest)
    else if c = '\\' then
      match rest with
      | [] => none
      | e :: rest2 =>
        let cont : Char → List Char → Option (List Char × List Char) := fun ch r =>
          match parseStrBody fuel r with
          | some (cs, r2) => some (ch :: cs, r2)
          | none => none
        if e = '"' then cont '"' rest2
        else if e = '\\' then cont '\\' rest2
        else if e = '/' then cont '/' rest2
        else if e = 'b' then cont (Char.ofNat 8) rest2
        else if e = 'f' then cont (Char.ofNat 12) rest2
        else if e = 'n' then cont '\n' rest2
        else if e = 'r' then cont '\r' rest2
        else if e = 't' then cont '\t' rest2
        else if e = 'u' then
          match rest2 with
          | h1 :: h2 :: h3 :: h4 :: rest3 =>
            match hexVal h1, hexVal h2, hexVal h3, hexVal h4 with
            | some a, some b, some c2, some d =>
              cont (Char.ofNat (((a * 16 + b) * 16 + c2) * 16 + d)) rest3
            | _, _, _, _ => none
          | _ => none
        else none
    else
      match parseStrBody fuel rest with
      | some (cs, r2) => some (c :: cs, r2)
      | none => none

mutual

/-- Parse one JSON value (fuel-based recursion). -/
def parseVal : Nat → List Char → Option (Json × List Char)
  | 0, _ => none
  | fuel + 1, s =>
    match skipWs s with
    | [] => none
    | c :: rest =>
      if c = Char.ofNat 123 then parseObjBody fuel rest
      else if c = '[' then parseArrBody fuel rest
      else if c = '"' then
        match parseStrBody (rest.length + 1) rest with
        | some (cs, r) => some (.str (String.mk cs), r)
        | none => none
      else if c = '-' then
        match rest with
        | d :: _ =>
          if d.isDigit then
            some (.num (-(digitsToNat (rest.takeWhile Char.isDigit) : Int)),
              rest.dropWhile Char.isDigit)
          else none
        | [] => none
      else if c.isDigit then
        some (.num (digitsToNat ((c :: rest).takeWhile Char.isDigit)),
          (c :: rest).dropWhile Char.isDigit)
      else if hasPref "true".data (c :: rest) then some (.bool true, (c :: rest).drop 4)
      else if hasPref "false".data (c :: rest) then some (.bool false, (c :: rest).drop 5)
      else if hasPref "null".data (c :: rest) then some (.null, (c :: rest).drop 4)
      else none

/-- Parse an array body (after the opening bracket). -/
def parseArrBody : Nat → List Char → Option (Json × List Char)
  | 0, _ => none
  | fuel + 1, s =>
    match skipWs s with
    | ']' :: rest => some (.arr [], rest)
    | s2 =>
      match parseVal fuel s2 with
      | some (v, r) => parseArrRest fuel r [v]
      | none => none

/-- Parse the remaining elements of an array. -/
def parseArrRest : Nat → List Char → List Json → Option (Json × List Char)
  | 0, _, _ => none
  | fuel + 1, s, acc =>
    match skipWs s with
    | ',' :: rest =>
      match parseVal fuel rest with
      | some (v, r) => parseArrRest fuel r (acc ++ [v])
      | none => none
    | ']' :: rest => some (.arr acc, rest)
    | _ => none

/-- Parse one object member `"key": value`. -/
def parseMember : Nat → List Char → Option ((String × Json) × List Char)
  | 0, _ => none
  | fuel + 1, s =>
    match skipWs s with
    | '"' :: rest =>
      match parseStrBody (rest.length + 1) rest with
      | some (k, r) =>
        match skipWs r with
        | ':' :: r2 =>
          match parseVal fuel r2 with
          | some (v, r3) => some ((String.mk k, v), r3)
          | none => none
        | _ => none
      | none => none
    | _ => none

/-- Parse an object body (after the opening brace). -/
def parseObjBody : Nat → List Char → Option (Json × List Char)
  | 0, _ => none
  | fuel + 1, s =>
    match skipWs s with
    | [] => none
    | c :: rest =>
      if c = Char.ofNat 125 then some (.obj [], rest)
      else
        match parseMember fuel (c :: rest) with
        | some (kv, r) => parseObjRest fuel r [kv]
        | none => none

/-- Parse the remaining members of an object. -/
def parseObjRest : Nat → List Char → List (String × Json) → Option (Json × List Char)
  | 0, _, _ => none
  | fuel + 1, s, acc =>
    match skipWs s with
    | [] => none
    | c :: rest =>
      if c = ',' then
        match parseMember fuel rest with
        | some (kv, r) => parseObjRest fuel r (acc ++ [kv])
        | none => none
      else if c = Char.ofNat 125 then some (.obj acc, rest)
      else none

end

/-- Model of `JSON.parse` on a string: the whole input must be consumed;
a parse error (an exception in JavaScript) is `none`. -/
def Json.parse (s : String) : Option Json :=
  match parseVal (2 * s.length + 2) s.data with
  | some (v, r) => if (skipWs r).isEmpty then some v else none
  | none => none

example : Json.parse "null" = some .null := by rfl
example : Json.parse "not-json" = none := by rfl
example : Json.parse " [1, -2] " = some (.arr [.num 1, .num (-2)]) := by rfl
example : Json.parse "\x7b\"a\":\x7b\"b\":[3]\x7d\x7d" =
    some (.obj [("a", .obj [("b", .arr [.num 3])])]) := by rfl
example : Json.parse "\x7b\"s\":\"x\\\"y\"\x7d" = some (.obj [("s", .str "x\"y")]) := by rfl

/-! ## URL utilities (source: `extractMediaCode`, `normalizeInstagramUrl`) -/

/-- Fixed leading part of the media-code regex `instagram\.com\/(?:p|reel)\/`. -/
def igPat : List Char := "instagram.com/".data

/-- The alternation `(?:p|reel)\/` of the media-code regex: the `p` branch is
tried first, then the `reel` branch. -/
def branchDrop (r : List Char) : Option (List Char) :=
  match dropPref "p/".data r with
  | some r2 => some r2
  | none => dropPref "reel/".data r

/-- Try the media-code regex at the start of `s`; on success return the
(greedy, non-empty) capture group `[A-Za-z0-9_-]+`. -/
def matchAt (s : List Char) : Option (List Char) :=
  match dropPref igPat s with
  | some r =>
    match branchDrop r with
    | some r2 =>
      if r2.takeWhile tokenChar = [] then none else some (r2.takeWhile tokenChar)
    | none => none
  | none => none

/-- Leftmost match of the media-code regex, modelling
`url.match(/instagram\.com\/(?:p|reel)\/([A-Za-z0-9_-]+)/)`. -/
def findMatch : List Char → Option (List Char)
  | [] => none
  | c :: cs =>
    match matchAt (c :: cs) with
    | some t => some t
    | none => findMatch cs

/-- Source `extractMediaCode`: the capture group of the first regex match,
or `null` (here `none`) when the regex does not match. -/
def extractMediaCode (url : String) : Option String :=
  (findMatch url.data).map String.mk

/-- The substring "/embed" checked by `normalizeInstagramUrl`. -/
def embedPat : List Char := "/embed".data

/-- Drop exactly one trailing slash, as the source's
`endsWith("/")`/`slice(0, -1)` step does. -/
def stripSlash (s : List Char) : List Char :=
  if endsWithL ['/'] s then s.dropLast else s

/-- Source `normalizeInstagramUrl` on character lists: trim, strip one
trailing slash, then append "/embed/" unless "/embed" already occurs, in
which case append "/" unless the string already ends with "/". -/
def normList (url : List Char) : List Char :=
  let t := stripSlash (trimList url)
  if hasSub embedPat t = false then t ++ "/embed/".data
  else if endsWithL ['/'] t = false then t ++ ['/']
  else t

/-- Source `normalizeInstagramUrl` on strings. -/
def normalizeInstagramUrl (url : String) : String := String.mk (normList url.data)

example : extractMediaCode "https://instagram.com/p/ABC123/" = some "ABC123" := by rfl
example : extractMediaCode "https://instagram.com/reel/XYZ789/" = some "XYZ789" := by rfl
example : extractMediaCode "https://example.com/watch?v=1" = none := by rfl
example : normalizeInstagramUrl "https://instagram.com/p/ABC123" =
    "https://instagram.com/p/ABC123/embed/" := by rfl
example : normalizeInstagramUrl " https://instagram.com/p/A/ " =
    "https://instagram.com/p/A/embed/" := by rfl
example : normalizeInstagramUrl "a/embed/b" = "a/embed/b/" := by rfl
example : normalizeInstagramUrl "a/embed///" = "a/embed//" := by rfl
example : normalizeInstagramUrl "a/embed//" = "a/embed/" := by rfl

/-! ## Proof aggregation (source: `extractPostData`) -/

/-- JavaScript `a || b` where `a` is a property access (`none` stands for
`undefined`). -/
def jsOr (a : Option Json) (b : Json) : Json :=
  match a with
  | some v => if v.truthy then v else b
  | none => b

/-- Truthiness of an optional value (`undefined` is falsy). -/
def truthyO (a : Option Json) : Bool :=
  match a with
  | some v => v.truthy
  | none => false

/-- The accumulator built by `extractPostData`. -/
structure PostData where
  username : Json
  caption : Json
  image : Json
  video : Json
  likes : Json
  comments : Json
  mediaCode : Json

/-- Initial accumulator of `extractPostData` (nulls and zero counts). -/
def initPostData : PostData :=
  { username := .null, caption := .null, image := .null, video := .null,
    likes := .num 0, comments := .num 0, mediaCode := .null }

/-- The `context` value of one proof: `proof.claimData?.context`, parsed
from a string when it is one (a `JSON.parse` exception, i.e. `none`, makes
the whole parameter block of this proof a no-op, matching the outer
`try`/`catch`). -/
def contextOf (p : Json) : Option Json :=
  match (p.getField "claimData").bind (fun cd => cd.getField "context") with
  | some (.str s) => Json.parse s
  | some v => some v
  | none => none

/-- The `extractedParameters` mapping of one proof. -/
def paramsOf (p : Json) : Option Json :=
  (contextOf p).bind (fun c => c.getField "extractedParameters")

/-- Model of `JSON.parse` applied to an extracted-parameter value: in the
source these values are strings; a non-string argument is modelled as a
parse failure. -/
def jsParseVal : Json → Option Json
  | .str s => Json.parse s
  | _ => none

/-- The optional chain `x?.value?.results?.[0]?.total_value`. -/
def totalValueChain (j : Json) : Option Json :=
  ((j.getField "value").bind (fun v => v.getField "results")).bind
    (fun r => (r.getIndex 0).bind (fun e => e.getField "total_value"))

/-- The `proof.publicData` block of `extractPostData`: merge caption, image
and video with `||` against the accumulator. -/
def applyPublic (p : Json) (acc : PostData) : PostData :=
  match p.getField "publicData" with
  | some pd =>
    if pd.truthy then
      { acc with
        caption := jsOr (pd.getField "caption") acc.caption,
        image := jsOr (pd.getField "image") acc.image,
        video := jsOr (pd.getField "video") acc.video }
    else acc
  | none => acc

/-- The `params.username` / `params.media_code` assignments of
`extractPostData`. -/
def applyParams (p : Json) (acc : PostData) : PostData :=
  match paramsOf p with
  | some ps =>
    if ps.truthy then
      { acc with
        username := jsOr (ps.getField "username") acc.username,
        mediaCode := jsOr (ps.getField "media_code") acc.mediaCode }
    else acc
  | none => acc

/-- The raw `params.like_count` value of a proof, when the parameter block
is reached. -/
def likeRawOf (p : Json) : Option Json :=
  match paramsOf p with
  | some ps => if ps.truthy then ps.getField "like_count" else none
  | none => none

/-- The raw `params.comment_count` value of a proof. -/
def commentRawOf (p : Json) : Option Json :=
  match paramsOf p with
  | some ps => if ps.truthy then ps.getField "comment_count" else none
  | none => none

/-- The `like_count` block of `extractPostData`: parse the nested JSON and
set `likes`, leaving the accumulator unchanged on a parse exception. -/
def applyLikes (p : Json) (acc : PostData) : PostData :=
  match likeRawOf p with
  | some lc =>
    if lc.truthy then
      match jsParseVal lc with
      | some j => { acc with likes := jsOr (totalValueChain j) (.num 0) }
      | none => acc
    else acc
  | none => acc

/-- The `comment_count` block of `extractPostData`. -/
def applyComments (p : Json) (acc : PostData) : PostData :=
  match commentRawOf p with
  | some cc =>
    if cc.truthy then
      match jsParseVal cc with
      | some j => { acc with comments := jsOr (totalValueChain j) (.num 0) }
      | none => acc
    else acc
  | none => acc

/-- One iteration of the `for (const proof of proofs)` loop of
`extractPostData`, in source statement order. -/
def processProof (acc : PostData) (p : Json) : PostData :=
  applyComments p (applyLikes p (applyParams p (applyPublic p acc)))

/-- Source `extractPostData`: `null` on an empty proof list, otherwise the
left-to-right accumulation over the proofs. -/
def extractPostData (proofs : List Json) : Option PostData :=
  if proofs.isEmpty then none
  else some (proofs.foldl processProof initPostData)

/-! ## Verification flow (source: `startVerification`, `resetAll`) -/

/-- The React state of the component, one field per `useState` hook. -/
structure FlowState where
  proofData : Option Json
  isFetching : Bool
  instagramUrl : String
  username : Option String
  isVerifying : Bool
  verificationProof : Option (List Json)
  reclaimProofRequest : Option Unit
  verificationError : Option String

/-- The initial component state (all hooks at their initial values). -/
def initFlowState : FlowState :=
  { proofData := none, isFetching := false, instagramUrl := "",
    username := none, isVerifying := false, verificationProof := none,
    reclaimProofRequest := none, verificationError := none }

/-- The externally visible steps performed by `startVerification`, in
program order. -/
inductive Event where
  | evOpen : Event
  | evGetUrl : Event
  | evNavigate : Event
  | evStartSession : Event
deriving DecidableEq

/-- Behaviour of the popup window handle returned by `window.open`:
whether it reports closed at the first check and at the re-check after the
verification URL was obtained. -/
structure Popup where
  closedAtOpen : Bool
  closedAfterUrl : Bool

/-- Result of `reclaimProofRequest.getRequestUrl()`: a URL or a rejection. -/
inductive UrlResult where
  | ok : String → UrlResult
  | threw : UrlResult

/-- Eventual outcome of `startSession`: the success callback with a
payload, the error callback with a message, a rejection of the awaited
call, or no callback yet. -/
inductive SessionOutcome where
  | success : Json → SessionOutcome
  | failure : String → SessionOutcome
  | threw : SessionOutcome
  | pending : SessionOutcome

/-- External behaviour driving one run of `startVerification`. -/
structure Env where
  popup : Option Popup
  urlResult : UrlResult
  outcome : SessionOutcome

def notInitializedMsg : String := "Verification not initialized. Please refresh the page."
def popupBlockedMsg : String := "Popup was blocked. Please allow popups for this site and try again."
def closedBeforeMsg : String := "Popup window was closed before loading. Please try again."
def invalidProofMsg : String := "Received invalid proof response."
def failedStartMsg : String := "Failed to start verification. Please try again."

/-- `Array.isArray(proof) ? proof : [proof]` in the success callback. -/
def normalizeProofPayload (payload : Json) : List Json :=
  match payload with
  | .arr l => l
  | v => [v]

/-- Source `startVerification` as a pure function of the state and the
external behaviour, also returning the ordered trace of external steps
(popup open, `getRequestUrl`, navigation, `startSession`). -/
def startVerification (st : FlowState) (env : Env) : FlowState × List Event :=
  match st.reclaimProofRequest with
  | none => ({ st with verificationError := some notInitializedMsg }, [])
  | some _ =>
    let st1 := { st with isVerifying := true, verificationError := none }
    match env.popup with
    | none =>
      ({ st1 with isVerifying := false, verificationError := some popupBlockedMsg },
        [.evOpen])
    | some pw =>
      if pw.closedAtOpen then
        ({ st1 with isVerifying := false, verificationError := some popupBlockedMsg },
          [.evOpen])
      else
        match env.urlResult with
        | .threw =>
          ({ st1 with isVerifying := false, verificationError := some failedStartMsg },
            [.evOpen, .evGetUrl])
        | .ok _ =>
          if pw.closedAfterUrl then
            ({ st1 with isVerifying := false, verificationError := some closedBeforeMsg },
              [.evOpen, .evGetUrl])
          else
            let tr := [Event.evOpen, Event.evGetUrl, Event.evNavigate, Event.evStartSession]
            match env.outcome with
            | .pending => (st1, tr)
            | .threw =>
              ({ st1 with isVerifying := false, verificationError := some failedStartMsg }, tr)
            | .failure msg =>
              ({ st1 with
                  isVerifying := false,
                  verificationError := some ("Verification error: " ++ msg) }, tr)
            | .success payload =>
              if payload.truthy && !payload.isStr then
                ({ st1 with
                    isVerifying := false,
                    verificationProof := some (normalizeProofPayload payload) }, tr)
              else
                ({ st1 with
                    isVerifying := false,
                    verificationError := some invalidProofMsg }, tr)

/-- Source `resetAll`: the six `set…` calls resetting the state. -/
def resetAll (st : FlowState) : FlowState :=
  { st with
    proofData := none, username := none, verificationProof := none,
    verificationError := none, reclaimProofRequest := none, instagramUrl := "" }

/-! ## Derived notions used to state properties -/

/-- The caption contribution of one proof: the value `extractPostData`
merges into the caption field for this proof, `none` when the proof has no
truthy `publicData`. -/
def captionContrib (p : Json) : Option Json :=
  match p.getField "publicData" with
  | some pd => if pd.truthy then pd.getField "caption" else none
  | none => none

/-- The image contribution of one proof. -/
def imageContrib (p : Json) : Option Json :=
  match p.getField "publicData" with
  | some pd => if pd.truthy then pd.getField "image" else none
  | none => none

/-- The video contribution of one proof. -/
def videoContrib (p : Json) : Option Json :=
  match p.getField "publicData" with
  | some pd => if pd.truthy then pd.getField "video" else none
  | none => none

/-- The username contribution of one proof. -/
def usernameContrib (p : Json) : Option Json :=
  match paramsOf p with
  | some ps => if ps.truthy then ps.getField "username" else none
  | none => none

/-- The media-code contribution of one proof. -/
def mediaCodeContrib (p : Json) : Option Json :=
  match paramsOf p with
  | some ps => if ps.truthy then ps.getField "media_code" else none
  | none => none

/-- Left-to-right `||`-merge of a sequence of optional contributions into
an initial value. -/
def mergeField (init : Json) : List (Option Json) → Json
  | [] => init
  | c :: cs => mergeField (jsOr c init) cs

/-- The `total_value` a proof yields for `likes`, when its `like_count`
parameter is present, truthy and parses. -/
def likeTotalOf (p : Json) : Option Json :=
  match likeRawOf p with
  | some lc =>
    if lc.truthy then
      match jsParseVal lc with
      | some j => totalValueChain j
      | none => none
    else none
  | none => none

/-- The `total_value` a proof yields for `comments`. -/
def commentTotalOf (p : Json) : Option Json :=
  match commentRawOf p with
  | some cc =>
    if cc.truthy then
      match jsParseVal cc with
      | some j => totalValueChain j
      | none => none
    else none
  | none => none

/-- A proof carrying only a caption, via `publicData`. -/
def captionProof (s : String) : Json :=
  .obj [("publicData", .obj [("caption", .str s)])]

/-- A proof whose extracted parameters carry only a `like_count` string. -/
def likeProof (s : String) : Json :=
  .obj [("claimData", .obj [("context", .obj [("extractedParameters",
    .obj [("like_count", .str s)])])])]

/-- The nested like-count JSON of the spec example (total value 42). -/
def likeStr42 : String := "\x7b\"value\":\x7b\"results\":[\x7b\"total_value\":42\x7d]\x7d\x7d"

/-- A nested like-count JSON carrying a negative total value. -/
def likeStrNeg : String := "\x7b\"value\":\x7b\"results\":[\x7b\"total_value\":-5\x7d]\x7d\x7d"

/-- The capture-group step of the media-code regex: the greedy token run,
failing when it is empty. -/
def tokOf (r2 : List Char) : Option (List Char) :=
  if r2.takeWhile tokenChar = [] then none else some (r2.takeWhile tokenChar)

/-! ## Claim C9: reset returns all tracked fields to their initial values -/

/-- C9: the reset action, from any state, returns every tracked field —
the zkFetch proof data, the username, the verification proof list, the
error message, the session handle and the URL input — to its initial
value. -/
theorem resetAll_restores_initial_fields (st : FlowState) :
    (resetAll st).proofData = initFlowState.proofData ∧
    (resetAll st).username = initFlowState.username ∧
    (resetAll st).verificationProof = initFlowState.verificationProof ∧
    (resetAll st).verificationError = initFlowState.verificationError ∧
    (resetAll st).reclaimProofRequest = initFlowState.reclaimProofRequest ∧
    (resetAll st).instagramUrl = initFlowState.instagramUrl :=
  ⟨rfl, rfl, rfl, rfl, rfl, rfl⟩

/-! ## Claim C4: popup blocking and step ordering in `startVerification` -/

/-- C4: with an initialized request, a null or already-closed popup handle
makes `startVerification` set the popup-blocked error and return before the
verification-URL request is issued; and in every run the performed external
steps form an initial segment of popup-open, URL-acquisition, navigation,
session-start — popup creation always precedes URL acquisition, which
precedes navigation. -/
theorem startVerification_popup_blocked_and_ordered :
    (∀ st env, st.reclaimProofRequest.isSome = true →
      (env.popup = none ∨ ∃ pw, env.popup = some pw ∧ pw.closedAtOpen = true) →
      (startVerification st env).1.verificationError = some popupBlockedMsg ∧
      Event.evGetUrl ∉ (startVerification st env).2) ∧
    (∀ st env, (startVerification st env).2 ∈
      [([] : List Event), [.evOpen], [.evOpen, .evGetUrl],
        [.evOpen, .evGetUrl, .evNavigate],
        [.evOpen, .evGetUrl, .evNavigate, .evStartSession]]) := by
  constructor
  · intro st env hreq hp
    rcases hq : st.reclaimProofRequest with _ | u
    · rw [hq] at hreq; simp at hreq
    · rcases hp with hp | ⟨pw, hp, hc⟩
      · simp [startVerification, hq, hp]
      · simp [startVerification, hq, hp, hc]
  · intro st env
    rcases env with ⟨_ | pw, ur, oc⟩ <;> rcases hq : st.reclaimProofRequest with _ | u <;>
        simp only [startVerification, hq] <;> try simp
    by_cases h1 : pw.closedAtOpen <;> simp [h1]
    rcases ur with u2 | _ <;> simp
    by_cases h2 : pw.closedAfterUrl <;> simp [h2]
    rcases oc with p | m | _ | _ <;> simp
    split <;> simp

/-! ## Claim C5: success-callback payload validation -/

/-- C5: when the success callback is reached and its payload is absent
(falsy) or a bare string, the flow records the invalid-proof-response error
and leaves the stored proof set unchanged; a truthy non-string, non-array
payload is stored as a one-element sequence. -/
theorem startVerification_success_validation
    (st : FlowState) (env : Env) (pw : Popup) (u : String) (payload : Json)
    (hreq : st.reclaimProofRequest.isSome = true)
    (hp : env.popup = some pw) (h1 : pw.closedAtOpen = false)
    (h2 : pw.closedAfterUrl = false) (hu : env.urlResult = .ok u)
    (ho : env.outcome = .success payload) :
    (payload.truthy = false ∨ payload.isStr = true →
      (startVerification st env).1.verificationError = some invalidProofMsg ∧
      (startVerification st env).1.verificationProof = st.verificationProof) ∧
    (payload.truthy = true → payload.isStr = false → (∀ l, payload ≠ .arr l) →
      (startVerification st env).1.verificationProof = some [payload]) := by
  rcases hq : st.reclaimProofRequest with _ | u0
  · rw [hq] at hreq; simp at hreq
  · constructor
    · intro hbad
      rcases hbad with hb | hb <;>
        simp [startVerification, hq, hp, h1, hu, ho, h2, hb]
    · intro ht hs hna
      have hn : normalizeProofPayload payload = [payload] := by
        cases payload with
        | arr l => exact absurd rfl (hna l)
        | null => rfl
        | bool b => rfl
        | num n => rfl
        | str s => rfl
        | obj fs => rfl
      simp [startVerification, hq, hp, h1, hu, ho, h2, ht, hs, hn]

/-- Witness for C5 at concrete inputs: a bare-string payload fails with the
invalid-proof-response error, and a plain object payload is stored as a
one-element proof list. -/
theorem startVerification_success_validation_witness :
    (startVerification { initFlowState with reclaimProofRequest := some () }
      { popup := some { closedAtOpen := false, closedAfterUrl := false },
        urlResult := .ok "u", outcome := .success (.str "oops") }).1.verificationError =
      some invalidProofMsg ∧
    (startVerification { initFlowState with reclaimProofRequest := some () }
      { popup := some { closedAtOpen := false, closedAfterUrl := false },
        urlResult := .ok "u", outcome := .success (.obj []) }).1.verificationProof =
      some [Json.obj []] := by
  constructor
  · exact ((startVerification_success_validation
      { initFlowState with reclaimProofRequest := some () }
      { popup := some { closedAtOpen := false, closedAfterUrl := false },
        urlResult := .ok "u", outcome := .success (.str "oops") }
      { closedAtOpen := false, closedAfterUrl := false } "u" (.str "oops")
      rfl rfl rfl rfl rfl rfl).1 (Or.inr rfl)).1
  · exact (startVerification_success_validation
      { initFlowState with reclaimProofRequest := some () }
      { popup := some { closedAtOpen := false, closedAfterUrl := false },
        urlResult := .ok "u", outcome := .success (.obj []) }
      { closedAtOpen := false, closedAfterUrl := false } "u" (.obj [])
      rfl rfl rfl rfl rfl rfl).2 rfl rfl (fun l h => Json.noConfusion h)

/-- Witness for C4 at a concrete input: with an initialized request and a
blocked popup, the error is the popup-blocked message and the
verification-URL step does not appear in the trace. -/
theorem startVerification_popup_blocked_witness :
    (startVerification { initFlowState with reclaimProofRequest := some () }
      { popup := none, urlResult := .threw, outcome := .pending }).1.verificationError =
      some popupBlockedMsg ∧
    Event.evGetUrl ∉ (startVerification { initFlowState with reclaimProofRequest := some () }
      { popup := none, urlResult := .threw, outcome := .pending }).2 :=
  startVerification_popup_blocked_and_ordered.1 _ _ rfl (Or.inl rfl)

/-! ## Claim C1: merge direction of `extractPostData` -/

/-- Counterexample to C1 as stated: for two proofs carrying captions "a"
then "b", `extractPostData` yields caption "b" (the later non-empty value
overrides), not "a". -/
theorem extractPostData_first_wins_counterexample :
    (extractPostData [captionProof "a", captionProof "b"]).map PostData.caption =
      some (Json.str "b") ∧
    (extractPostData [captionProof "a", captionProof "b"]).map PostData.caption ≠
      some (Json.str "a") := by
  refine ⟨rfl, fun h => ?_⟩
  rw [show (extractPostData [captionProof "a", captionProof "b"]).map PostData.caption =
    some (Json.str "b") from rfl] at h
  have h2 : Json.str "b" = Json.str "a" := by injection h
  have h3 : "b" = "a" := by injection h2
  exact absurd h3 (by decide)

/-! ## Claim C2: sign of the extracted counts -/

/-- Counterexample to C2 as stated: a proof whose `like_count` carries a
total value of `-5` makes `extractPostData` return `likes = -5`, which is
not a non-negative integer. -/
theorem extractPostData_nonneg_counts_counterexample :
    ¬ ∃ n : Int, 0 ≤ n ∧
      (extractPostData [likeProof likeStrNeg]).map PostData.likes = some (Json.num n) := by
  rintro ⟨n, hn, h⟩
  rw [show (extractPostData [likeProof likeStrNeg]).map PostData.likes =
    some (Json.num (-5)) from rfl] at h
  have h2 : Json.num (-5) = Json.num n := by injection h
  have h3 : (-5 : Int) = n := by injection h2
  omega

/-! ## Claim C3: shape of normalized URLs -/

/-- Counterexample to C3 as stated: `normalizeInstagramUrl` applied to
"a/embed/b" yields "a/embed/b/", which does not end in "/embed/". -/
theorem normalize_embed_suffix_counterexample :
    normalizeInstagramUrl "a/embed/b" = "a/embed/b/" ∧
    endsWithL "/embed/".data "a/embed/b/".data = false := ⟨rfl, rfl⟩

/-! ## Claim C8: idempotence of `normalizeInstagramUrl` -/

/-- Counterexample to C8 as stated: normalizing "a/embed///" gives
"a/embed//", and normalizing again gives the different string "a/embed/". -/
theorem normalize_idempotent_counterexample :
    normalizeInstagramUrl (normalizeInstagramUrl "a/embed///") ≠
      normalizeInstagramUrl "a/embed///" := by
  rw [show normalizeInstagramUrl "a/embed///" = "a/embed//" from rfl,
    show normalizeInstagramUrl "a/embed//" = "a/embed/" from rfl]
  decide

/-! ## Merge characterization of `extractPostData` -/

theorem applyPublic_caption (p : Json) (acc : PostData) :
    (applyPublic p acc).caption = jsOr (captionContrib p) acc.caption := by
  unfold applyPublic captionContrib
  cases p.getField "publicData" with
  | none => rfl
  | some pd => by_cases h : pd.truthy <;> simp [h, jsOr]

theorem applyPublic_image (p : Json) (acc : PostData) :
    (applyPublic p acc).image = jsOr (imageContrib p) acc.image := by
  unfold applyPublic imageContrib
  cases p.getField "publicData" with
  | none => rfl
  | some pd => by_cases h : pd.truthy <;> simp [h, jsOr]

theorem applyPublic_video (p : Json) (acc : PostData) :
    (applyPublic p acc).video = jsOr (videoContrib p) acc.video := by
  unfold applyPublic videoContrib
  cases p.getField "publicData" with
  | none => rfl
  | some pd => by_cases h : pd.truthy <;> simp [h, jsOr]

theorem applyPublic_username (p : Json) (acc : PostData) :
    (applyPublic p acc).username = acc.username := by
  unfold applyPublic
  cases p.getField "publicData" with
  | none => rfl
  | some pd => by_cases h : pd.truthy <;> simp [h]

theorem applyPublic_mediaCode (p : Json) (acc : PostData) :
    (applyPublic p acc).mediaCode = acc.mediaCode := by
  unfold applyPublic
  cases p.getField "publicData" with
  | none => rfl
  | some pd => by_cases h : pd.truthy <;> simp [h]

theorem applyPublic_likes (p : Json) (acc : PostData) :
    (applyPublic p acc).likes = acc.likes := by
  unfold applyPublic
  cases p.getField "publicData" with
  | none => rfl
  | some pd => by_cases h : pd.truthy <;> simp [h]

theorem applyPublic_comments (p : Json) (acc : PostData) :
    (applyPublic p acc).comments = acc.comments := by
  unfold applyPublic
  cases p.getField "publicData" with
  | none => rfl
  | some pd => by_cases h : pd.truthy <;> simp [h]

theorem applyParams_username (p : Json) (acc : PostData) :
    (applyParams p acc).username = jsOr (usernameContrib p) acc.username := by
  unfold applyParams usernameContrib
  cases paramsOf p with
  | none => rfl
  | some ps => by_cases h : ps.truthy <;> simp [h, jsOr]

theorem applyParams_mediaCode (p : Json) (acc : PostData) :
    (applyParams p acc).mediaCode = jsOr (mediaCodeContrib p) acc.mediaCode := by
  unfold applyParams mediaCodeContrib
  cases paramsOf p with
  | none => rfl
  | some ps => by_cases h : ps.truthy <;> simp [h, jsOr]

theorem applyParams_caption (p : Json) (acc : PostData) :
    (applyParams p acc).caption = acc.caption := by
  unfold applyParams
  cases paramsOf p with
  | none => rfl
  | some ps => by_cases h : ps.truthy <;> simp [h]

theorem applyParams_image (p : Json) (acc : PostData) :
    (applyParams p acc).image = acc.image := by
  unfold applyParams
  cases paramsOf p with
  | none => rfl
  | some ps => by_cases h : ps.truthy <;> simp [h]

theorem applyParams_video (p : Json) (acc : PostData) :
    (applyParams p acc).video = acc.video := by
  unfold applyParams
  cases paramsOf p with
  | none => rfl
  | some ps => by_cases h : ps.truthy <;> simp [h]

theorem applyParams_likes (p : Json) (acc : PostData) :
    (applyParams p acc).likes = acc.likes := by
  unfold applyParams
  cases paramsOf p with
  | none => rfl
  | some ps => by_cases h : ps.truthy <;> simp [h]

theorem applyParams_comments (p : Json) (acc : PostData) :
    (applyParams p acc).comments = acc.comments := by
  unfold applyParams
  cases paramsOf p with
  | none => rfl
  | some ps => by_cases h : ps.truthy <;> simp [h]

theorem applyLikes_keeps (p : Json) (acc : PostData) :
    (applyLikes p acc).username = acc.username ∧
    (applyLikes p acc).caption = acc.caption ∧
    (applyLikes p acc).image = acc.image ∧
    (applyLikes p acc).video = acc.video ∧
    (applyLikes p acc).comments = acc.comments ∧
    (applyLikes p acc).mediaCode = acc.mediaCode := by
  unfold applyLikes
  cases likeRawOf p with
  | none => exact ⟨rfl, rfl, rfl, rfl, rfl, rfl⟩
  | some lc =>
    by_cases h : lc.truthy <;> simp [h]
    cases jsParseVal lc <;> simp

theorem applyComments_keeps (p : Json) (acc : PostData) :
    (applyComments p acc).username = acc.username ∧
    (applyComments p acc).caption = acc.caption ∧
    (applyComments p acc).image = acc.image ∧
    (applyComments p acc).video = acc.video ∧
    (applyComments p acc).likes = acc.likes ∧
    (applyComments p acc).mediaCode = acc.mediaCode := by
  unfold applyComments
  cases commentRawOf p with
  | none => exact ⟨rfl, rfl, rfl, rfl, rfl, rfl⟩
  | some cc =>
    by_cases h : cc.truthy <;> simp [h]
    cases jsParseVal cc <;> simp

theorem processProof_caption (acc : PostData) (p : Json) :
    (processProof acc p).caption = jsOr (captionContrib p) acc.caption := by
  unfold processProof
  rw [(applyComments_keeps p _).2.1, (applyLikes_keeps p _).2.1,
    applyParams_caption, applyPublic_caption]

theorem processProof_image (acc : PostData) (p : Json) :
    (processProof acc p).image = jsOr (imageContrib p) acc.image := by
  unfold processProof
  rw [(applyComments_keeps p _).2.2.1, (applyLikes_keeps p _).2.2.1,
    applyParams_image, applyPublic_image]

theorem processProof_video (acc : PostData) (p : Json) :
    (processProof acc p).video = jsOr (videoContrib p) acc.video := by
  unfold processProof
  rw [(applyComments_keeps p _).2.2.2.1, (applyLikes_keeps p _).2.2.2.1,
    applyParams_video, applyPublic_video]

theorem processProof_username (acc : PostData) (p : Json) :
    (processProof acc p).username = jsOr (usernameContrib p) acc.username := by
  unfold processProof
  rw [(applyComments_keeps p _).1, (applyLikes_keeps p _).1,
    applyParams_username, applyPublic_username]

theorem processProof_mediaCode (acc : PostData) (p : Json) :
    (processProof acc p).mediaCode = jsOr (mediaCodeContrib p) acc.mediaCode := by
  unfold processProof
  rw [(applyComments_keeps p _).2.2.2.2.2, (applyLikes_keeps p _).2.2.2.2.2,
    applyParams_mediaCode, applyPublic_mediaCode]

theorem mergeField_untouched (cs : List (Option Json)) (x : Json)
    (h : ∀ c ∈ cs, truthyO c = false) : mergeField x cs = x := by
  induction cs generalizing x with
  | nil => rfl
  | cons c cs ih =>
    have hc := h c (List.mem_cons_self _ _)
    have hx : jsOr c x = x := by
      cases c with
      | none => rfl
      | some v => simp only [truthyO] at hc; simp [jsOr, hc]
    show mergeField (jsOr c x) cs = x
    rw [hx]
    exact ih x (fun d hd => h d (List.mem_cons_of_mem _ hd))

theorem mergeField_append (x : Json) (as bs : List (Option Json)) :
    mergeField x (as ++ bs) = mergeField (mergeField x as) bs := by
  induction as generalizing x with
  | nil => rfl
  | cons a as ih => simp only [List.cons_append, mergeField]; exact ih _

theorem mergeField_last_wins (x : Json) (cs ds : List (Option Json)) (c : Json)
    (hc : c.truthy = true) (hd : ∀ d ∈ ds, truthyO d = false) :
    mergeField x (cs ++ some c :: ds) = c := by
  rw [mergeField_append]
  show mergeField (jsOr (some c) (mergeField x cs)) ds = c
  rw [show jsOr (some c) (mergeField x cs) = c from by simp [jsOr, hc]]
  exact mergeField_untouched ds c hd

theorem extract_field_last_wins (f : PostData → Json) (contrib : Json → Option Json)
    (hstep : ∀ acc p, f (processProof acc p) = jsOr (contrib p) (f acc))
    (ps : List Json) (p : Json) (qs : List Json) (c : Json)
    (hc : contrib p = some c) (hct : c.truthy = true)
    (hqs : ∀ q ∈ qs, truthyO (contrib q) = false) :
    (extractPostData (ps ++ p :: qs)).map f = some c := by
  have hfold : ∀ (l : List Json) (acc : PostData),
      f (l.foldl processProof acc) = mergeField (f acc) (l.map contrib) := by
    intro l
    induction l with
    | nil => intro acc; rfl
    | cons x xs ih =>
      intro acc
      show f (xs.foldl processProof (processProof acc x)) = mergeField (f acc) _
      rw [ih, hstep]
      rfl
  have hne : (ps ++ p :: qs).isEmpty = false := by simp
  rw [show extractPostData (ps ++ p :: qs) =
    some ((ps ++ p :: qs).foldl processProof initPostData) from by
      unfold extractPostData; rw [hne]; rfl]
  simp only [Option.map_some']
  rw [hfold, List.map_append, List.map_cons, hc]
  exact congrArg some (mergeField_last_wins _ _ _ _ hct
    (fun d hd => by
      rcases List.mem_map.mp hd with ⟨q, hq, rfl⟩
      exact hqs q hq))

/-! ## Claim C1 (amended): last non-empty wins per field -/

/-- C1 amended: `extractPostData` merges the per-field values (caption,
image, video, username, mediaCode) last-non-empty-wins in sequence order: a
proof's truthy value for a field overrides all earlier values, and survives
exactly when every later proof leaves the field absent or empty; in
particular, for proofs carrying captions "a" then "b" the result has
caption "b". -/
theorem extractPostData_last_nonempty_wins :
    (∀ ps p qs c, captionContrib p = some c → c.truthy = true →
      (∀ q ∈ qs, truthyO (captionContrib q) = false) →
      (extractPostData (ps ++ p :: qs)).map PostData.caption = some c) ∧
    (∀ ps p qs c, imageContrib p = some c → c.truthy = true →
      (∀ q ∈ qs, truthyO (imageContrib q) = false) →
      (extractPostData (ps ++ p :: qs)).map PostData.image = some c) ∧
    (∀ ps p qs c, videoContrib p = some c → c.truthy = true →
      (∀ q ∈ qs, truthyO (videoContrib q) = false) →
      (extractPostData (ps ++ p :: qs)).map PostData.video = some c) ∧
    (∀ ps p qs c, usernameContrib p = some c → c.truthy = true →
      (∀ q ∈ qs, truthyO (usernameContrib q) = false) →
      (extractPostData (ps ++ p :: qs)).map PostData.username = some c) ∧
    (∀ ps p qs c, mediaCodeContrib p = some c → c.truthy = true →
      (∀ q ∈ qs, truthyO (mediaCodeContrib q) = false) →
      (extractPostData (ps ++ p :: qs)).map PostData.mediaCode = some c) :=
  ⟨fun ps p qs c hc hct hqs =>
      extract_field_last_wins PostData.caption captionContrib
        (fun a q => processProof_caption a q) ps p qs c hc hct hqs,
    fun ps p qs c hc hct hqs =>
      extract_field_last_wins PostData.image imageContrib
        (fun a q => processProof_image a q) ps p qs c hc hct hqs,
    fun ps p qs c hc hct hqs =>
      extract_field_last_wins PostData.video videoContrib
        (fun a q => processProof_video a q) ps p qs c hc hct hqs,
    fun ps p qs c hc hct hqs =>
      extract_field_last_wins PostData.username usernameContrib
        (fun a q => processProof_username a q) ps p qs c hc hct hqs,
    fun ps p qs c hc hct hqs =>
      extract_field_last_wins PostData.mediaCode mediaCodeContrib
        (fun a q => processProof_mediaCode a q) ps p qs c hc hct hqs⟩

/-- Witness for the amended C1 at a concrete input: the later caption "b"
wins over the earlier caption "a". -/
theorem extractPostData_last_nonempty_wins_witness :
    (extractPostData [captionProof "a", captionProof "b"]).map PostData.caption =
      some (Json.str "b") :=
  extractPostData_last_nonempty_wins.1 [captionProof "a"] (captionProof "b") []
    (Json.str "b") rfl rfl (fun q hq => absurd hq (List.not_mem_nil q))

/-! ## Claim C2 (amended): sign of the counts under non-negative inputs -/

theorem applyLikes_likes_cases (p : Json) (acc : PostData) :
    (applyLikes p acc).likes = acc.likes ∨
    (applyLikes p acc).likes = Json.num 0 ∨
    ∃ v, likeTotalOf p = some v ∧ v.truthy = true ∧ (applyLikes p acc).likes = v := by
  unfold applyLikes likeTotalOf
  cases likeRawOf p with
  | none => exact Or.inl rfl
  | some lc =>
    by_cases ht : lc.truthy
    · simp only [ht, if_true]
      cases jsParseVal lc with
      | none => exact Or.inl rfl
      | some j =>
        cases hv : totalValueChain j with
        | none => exact Or.inr (Or.inl (by simp [jsOr, hv]))
        | some v =>
          by_cases hvt : v.truthy
          · exact Or.inr (Or.inr ⟨v, hv, hvt, by simp [jsOr, hv, hvt]⟩)
          · exact Or.inr (Or.inl (by simp [jsOr, hv, hvt]))
    · simp only [ht, if_false]; exact Or.inl rfl

theorem applyComments_comments_cases (p : Json) (acc : PostData) :
    (applyComments p acc).comments = acc.comments ∨
    (applyComments p acc).comments = Json.num 0 ∨
    ∃ v, commentTotalOf p = some v ∧ v.truthy = true ∧ (applyComments p acc).comments = v := by
  unfold applyComments commentTotalOf
  cases commentRawOf p with
  | none => exact Or.inl rfl
  | some cc =>
    by_cases ht : cc.truthy
    · simp only [ht, if_true]
      cases jsParseVal cc with
      | none => exact Or.inl rfl
      | some j =>
        cases hv : totalValueChain j with
        | none => exact Or.inr (Or.inl (by simp [jsOr, hv]))
        | some v =>
          by_cases hvt : v.truthy
          · exact Or.inr (Or.inr ⟨v, hv, hvt, by simp [jsOr, hv, hvt]⟩)
          · exact Or.inr (Or.inl (by simp [jsOr, hv, hvt]))
    · simp only [ht, if_false]; exact Or.inl rfl

/-- C2 amended: for every non-empty proof sequence all of whose nested
`total_value` entries (for both counts) are non-negative integers, the
`PostData` record returned by `extractPostData` has `likes` and `comments`
equal to non-negative integers; a malformed or absent entry contributes the
default 0, but a negative `total_value` is carried through as-is (see the
counterexample). -/
theorem extractPostData_counts_nonneg (ps : List Json) (hne : ps ≠ [])
    (hl : ∀ p ∈ ps, ∀ v, likeTotalOf p = some v → ∃ n : Int, 0 ≤ n ∧ v = Json.num n)
    (hc : ∀ p ∈ ps, ∀ v, commentTotalOf p = some v → ∃ n : Int, 0 ≤ n ∧ v = Json.num n) :
    ∃ r, extractPostData ps = some r ∧
      (∃ a : Int, 0 ≤ a ∧ r.likes = Json.num a) ∧
      (∃ b : Int, 0 ≤ b ∧ r.comments = Json.num b) := by
  have key : ∀ (l : List Json) (acc : PostData),
      (∀ p ∈ l, ∀ v, likeTotalOf p = some v → ∃ n : Int, 0 ≤ n ∧ v = Json.num n) →
      (∀ p ∈ l, ∀ v, commentTotalOf p = some v → ∃ n : Int, 0 ≤ n ∧ v = Json.num n) →
      (∃ a : Int, 0 ≤ a ∧ acc.likes = Json.num a) →
      (∃ b : Int, 0 ≤ b ∧ acc.comments = Json.num b) →
      (∃ a : Int, 0 ≤ a ∧ (l.foldl processProof acc).likes = Json.num a) ∧
      (∃ b : Int, 0 ≤ b ∧ (l.foldl processProof acc).comments = Json.num b) := by
    intro l
    induction l with
    | nil => intro acc _ _ ha hb; exact ⟨ha, hb⟩
    | cons p l ih =>
      intro acc hl2 hc2 ha hb
      refine ih (processProof acc p) (fun q hq => hl2 q (List.mem_cons_of_mem _ hq))
        (fun q hq => hc2 q (List.mem_cons_of_mem _ hq)) ?_ ?_
      · have hcomp : (processProof acc p).likes =
            (applyLikes p (applyParams p (applyPublic p acc))).likes := by
          unfold processProof; rw [(applyComments_keeps p _).2.2.2.2.1]
        have hbase : (applyParams p (applyPublic p acc)).likes = acc.likes := by
          rw [applyParams_likes, applyPublic_likes]
        rcases ha with ⟨a, ha0, hal⟩
        rcases applyLikes_likes_cases p (applyParams p (applyPublic p acc)) with
          h | h | ⟨v, hv, hvt, h⟩
        · exact ⟨a, ha0, by rw [hcomp, h, hbase, hal]⟩
        · exact ⟨0, le_refl 0, by rw [hcomp, h]⟩
        · rcases hl2 p (List.mem_cons_self _ _) v hv with ⟨n, hn0, rfl⟩
          exact ⟨n, hn0, by rw [hcomp, h]⟩
      · have hcomp : (processProof acc p).comments =
            (applyComments p (applyLikes p (applyParams p (applyPublic p acc)))).comments := by
          unfold processProof; rfl
        have hbase : (applyLikes p (applyParams p (applyPublic p acc))).comments =
            acc.comments := by
          rw [(applyLikes_keeps p _).2.2.2.2.1, applyParams_comments, applyPublic_comments]
        rcases hb with ⟨b, hb0, hbl⟩
        rcases applyComments_comments_cases p (applyLikes p (applyParams p (applyPublic p acc)))
          with h | h | ⟨v, hv, hvt, h⟩
        · exact ⟨b, hb0, by rw [hcomp, h, hbase, hbl]⟩
        · exact ⟨0, le_refl 0, by rw [hcomp, h]⟩
        · rcases hc2 p (List.mem_cons_self _ _) v hv with ⟨n, hn0, rfl⟩
          exact ⟨n, hn0, by rw [hcomp, h]⟩
  have hempty : ps.isEmpty = false := by
    cases ps with
    | nil => exact absurd rfl hne
    | cons a l => rfl
  rcases key ps initPostData hl hc ⟨0, le_refl 0, rfl⟩ ⟨0, le_refl 0, rfl⟩ with ⟨hA, hB⟩
  refine ⟨ps.foldl processProof initPostData, ?_, hA, hB⟩
  unfold extractPostData
  rw [hempty]
  rfl

/-- Witness for the amended C2 at a concrete input: the spec's like-count
example with total value 42 yields non-negative integer counts. -/
theorem extractPostData_counts_nonneg_witness :
    ∃ r, extractPostData [likeProof likeStr42] = some r ∧
      (∃ a : Int, 0 ≤ a ∧ r.likes = Json.num a) ∧
      (∃ b : Int, 0 ≤ b ∧ r.comments = Json.num b) := by
  apply extractPostData_counts_nonneg
  · intro h; exact List.noConfusion h
  · intro p hp v hv
    rw [List.mem_singleton] at hp
    subst hp
    rw [show likeTotalOf (likeProof likeStr42) = some (Json.num 42) from rfl] at hv
    have hv2 : Json.num 42 = v := by injection hv
    exact ⟨42, by omega, hv2.symm⟩
  · intro p hp v hv
    rw [List.mem_singleton] at hp
    subst hp
    rw [show commentTotalOf (likeProof likeStr42) = none from rfl] at hv
    exact Option.noConfusion hv

/-! ## Claim C6: nested like-count decoding and failure isolation -/

/-- C6: a proof whose `like_count` is the nested JSON string with total
value 42 yields `likes = 42`; a proof whose `like_count` is the malformed
string "not-json" yields `likes = 0` without raising (the model is total);
and in general a `like_count` whose decode fails leaves the step equal to
the same step with the like block skipped, so the remaining fields and
remaining proofs are processed unchanged. -/
theorem extractPostData_like_count_decode :
    (extractPostData [likeProof likeStr42]).map PostData.likes = some (Json.num 42) ∧
    (extractPostData [likeProof "not-json"]).map PostData.likes = some (Json.num 0) ∧
    (∀ acc p lc, likeRawOf p = some lc → lc.truthy = true → jsParseVal lc = none →
      processProof acc p = applyComments p (applyParams p (applyPublic p acc))) := by
  refine ⟨rfl, rfl, ?_⟩
  intro acc p lc hr ht hj
  unfold processProof
  congr 1
  unfold applyLikes
  rw [hr]
  simp [ht, hj]

/-- Witness for C6 at a concrete input: with the malformed like-count
string "not-json", the processing step equals the step with the like block
skipped. -/
theorem extractPostData_like_count_decode_witness :
    processProof initPostData (likeProof "not-json") =
      applyComments (likeProof "not-json")
        (applyParams (likeProof "not-json")
          (applyPublic (likeProof "not-json") initPostData)) :=
  extractPostData_like_count_decode.2.2 initPostData (likeProof "not-json")
    (Json.str "not-json") rfl rfl rfl

/-! ## Structure of normalized URLs -/

theorem hasPref_append_self (p r : List Char) : hasPref p (p ++ r) = true := by
  induction p with
  | nil => rfl
  | cons c cs ih => simp [hasPref, ih]

theorem endsWithL_append (suf t : List Char) : endsWithL suf (t ++ suf) = true := by
  unfold endsWithL
  rw [List.reverse_append]
  exact hasPref_append_self _ _

theorem endsWith_single (c : Char) (s : List Char) :
    endsWithL [c] s = true ↔ s.getLast? = some c := by
  unfold endsWithL
  rw [← List.head?_reverse]
  cases s.reverse with
  | nil => simp [hasPref]
  | cons a rest => simp [hasPref, eq_comm]

theorem hasSub_append_self (pat t : List Char) (hp : pat ≠ []) :
    hasSub pat (t ++ pat) = true := by
  induction t with
  | nil =>
    cases pat with
    | nil => exact absurd rfl hp
    | cons a ps =>
      show hasSub (a :: ps) (a :: ps) = true
      unfold hasSub
      have := hasPref_append_self (a :: ps) []
      rw [List.append_nil] at this
      simp [this]
  | cons c t2 ih => simp [hasSub, ih]

theorem head_dropWhile_not_ws (s : List Char) (c : Char)
    (h : (s.dropWhile Char.isWhitespace).head? = some c) : c.isWhitespace = false := by
  induction s with
  | nil => simp [List.dropWhile] at h
  | cons a s2 ih =>
    rw [List.dropWhile_cons] at h
    by_cases hw : a.isWhitespace
    · rw [if_pos (by simp [hw])] at h; exact ih h
    · rw [if_neg (by simp [hw])] at h
      have : a = c := by injection h
      subst this
      simp at hw
      exact hw

theorem trimL_eq_self (s : List Char)
    (h : ∀ c, s.head? = some c → c.isWhitespace = false) : trimL s = s := by
  cases s with
  | nil => rfl
  | cons a s2 =>
    unfold trimL
    rw [List.dropWhile_cons, if_neg (by simp [h a rfl])]

theorem trimR_eq_self (s : List Char) (c : Char) (hl : s.getLast? = some c)
    (hw : c.isWhitespace = false) : trimR s = s := by
  unfold trimR
  have h1 : s.reverse.head? = some c := by rw [List.head?_reverse]; exact hl
  cases hrev : s.reverse with
  | nil => rw [hrev] at h1; exact Option.noConfusion h1
  | cons a rest =>
    rw [hrev] at h1
    have ha : a = c := by injection h1
    subst ha
    rw [List.dropWhile_cons, if_neg (by simp [hw])]
    rw [← hrev, List.reverse_reverse]

theorem trimR_append_ws (s : List Char) :
    s = trimR s ++ (s.reverse.takeWhile Char.isWhitespace).reverse := by
  unfold trimR
  conv_lhs => rw [← s.reverse_reverse]
  rw [← List.reverse_append, List.takeWhile_append_dropWhile]

theorem head?_dropLast (s : List Char) (c : Char) (h : s.dropLast.head? = some c) :
    s.head? = some c := by
  cases s with
  | nil => simp at h
  | cons a s2 =>
    cases s2 with
    | nil => simp [List.dropLast] at h
    | cons b s3 => simpa [List.dropLast] using h

theorem head_strip_trim_not_ws (x : List Char) (c : Char)
    (h : (stripSlash (trimList x)).head? = some c) : c.isWhitespace = false := by
  have h2 : (trimList x).head? = some c := by
    unfold stripSlash at h
    by_cases he : endsWithL ['/'] (trimList x) = true
    · rw [if_pos he] at h; exact head?_dropLast _ _ h
    · rw [if_neg he] at h; exact h
  have h3 : (trimL x).head? = some c := by
    unfold trimList at h2
    have hs := trimR_append_ws (trimL x)
    cases htr : trimR (trimL x) with
    | nil => rw [htr] at h2; exact Option.noConfusion h2
    | cons a rest =>
      rw [htr] at h2 hs
      have ha : a = c := by injection h2
      subst ha
      rw [hs]
      rfl
  exact head_dropWhile_not_ws x c h3

theorem head?_append_cases (t B : List Char) (c : Char) (h : (t ++ B).head? = some c) :
    t.head? = some c ∨ (t = [] ∧ B.head? = some c) := by
  cases t with
  | nil => exact Or.inr ⟨rfl, h⟩
  | cons a t2 => exact Or.inl h

theorem normList_last (x : List Char) : (normList x).getLast? = some '/' := by
  unfold normList
  by_cases h1 : hasSub embedPat (stripSlash (trimList x)) = false
  · rw [if_pos h1, List.getLast?_append_of_ne_nil _ (by decide)]
    rfl
  · rw [if_neg h1]
    by_cases h2 : endsWithL ['/'] (stripSlash (trimList x)) = false
    · rw [if_pos h2, List.getLast?_append_of_ne_nil _ (by decide)]
      rfl
    · rw [if_neg h2]
      have h3 : endsWithL ['/'] (stripSlash (trimList x)) = true := by
        cases hb : endsWithL ['/'] (stripSlash (trimList x)) with
        | false => exact absurd hb h2
        | true => rfl
      exact (endsWith_single '/' _).mp h3

theorem normList_head_not_ws (x : List Char) (c : Char)
    (h : (normList x).head? = some c) : c.isWhitespace = false := by
  unfold normList at h
  by_cases h1 : hasSub embedPat (stripSlash (trimList x)) = false
  · rw [if_pos h1] at h
    rcases head?_append_cases _ _ _ h with h2 | ⟨_, h2⟩
    · exact head_strip_trim_not_ws x c h2
    · have : c = '/' := by
        have : '/' = c := by injection h2
        exact this.symm
      subst this; decide
  · rw [if_neg h1] at h
    by_cases h2 : endsWithL ['/'] (stripSlash (trimList x)) = false
    · rw [if_pos h2] at h
      rcases head?_append_cases _ _ _ h with h3 | ⟨_, h3⟩
      · exact head_strip_trim_not_ws x c h3
      · have : c = '/' := by
          have : '/' = c := by injection h3
          exact this.symm
        subst this; decide
    · rw [if_neg h2] at h
      exact head_strip_trim_not_ws x c h

/-! ## Claim C3 (amended): shape of the normalizer's output -/

/-- C3 amended: for every input string the normalizer trims whitespace,
strips exactly one trailing "/", and returns a string that ends in "/";
when the trimmed, slash-stripped input does not already contain "/embed"
the appended suffix is "/embed/" and the result therefore ends in
"/embed/" (otherwise only a single "/" is ensured at the end, which need
not yield an "/embed/" suffix — see the counterexample). -/
theorem normalize_shape (url : String) :
    endsWithL ['/'] (normalizeInstagramUrl url).data = true ∧
    (hasSub embedPat (stripSlash (trimList url.data)) = false →
      endsWithL "/embed/".data (normalizeInstagramUrl url).data = true) := by
  have hdata : (normalizeInstagramUrl url).data = normList url.data := rfl
  rw [hdata]
  constructor
  · exact (endsWith_single '/' _).mpr (normList_last url.data)
  · intro h1
    unfold normList
    rw [if_pos h1]
    exact endsWithL_append _ _

/-- Witness for the amended C3 at a concrete input: normalizing "abc"
yields a string ending in "/" and in "/embed/". -/
theorem normalize_shape_witness :
    endsWithL ['/'] (normalizeInstagramUrl "abc").data = true ∧
    endsWithL "/embed/".data (normalizeInstagramUrl "abc").data = true :=
  ⟨(normalize_shape "abc").1, (normalize_shape "abc").2 (by decide)⟩

/-! ## Claim C8 (amended): idempotence away from double trailing slashes -/

theorem normList_trimmed (x : List Char) : trimList (normList x) = normList x := by
  unfold trimList
  have h1 : trimL (normList x) = normList x :=
    trimL_eq_self _ (fun c hc => normList_head_not_ws x c hc)
  rw [h1]
  exact trimR_eq_self _ '/' (normList_last x) (by decide)

theorem stripSlash_concat (w : List Char) : stripSlash (w ++ ['/']) = w := by
  unfold stripSlash
  rw [if_pos (endsWithL_append ['/'] w), List.dropLast_concat]

theorem normList_fix_embed (w : List Char)
    (htrim : trimList (w ++ "/embed/".data) = w ++ "/embed/".data) :
    normList (w ++ "/embed/".data) = w ++ "/embed/".data := by
  have hy2 : w ++ "/embed/".data = (w ++ "/embed".data) ++ ['/'] := by
    rw [List.append_assoc]
    rfl
  unfold normList
  rw [htrim, hy2, stripSlash_concat]
  have hsub : hasSub embedPat (w ++ "/embed".data) = true :=
    hasSub_append_self embedPat w (by decide)
  rw [if_neg (by simp [hsub])]
  have hlast : (w ++ "/embed".data).getLast? = some 'd' := by
    rw [List.getLast?_append_of_ne_nil _ (by decide)]
    rfl
  have hend : endsWithL ['/'] (w ++ "/embed".data) = false := by
    cases hb : endsWithL ['/'] (w ++ "/embed".data) with
    | false => rfl
    | true =>
      have h3 := (endsWith_single '/' _).mp hb
      rw [hlast] at h3
      have h4 : 'd' = '/' := by injection h3
      exact absurd h4 (by decide)
  rw [if_pos hend]

theorem normList_fix_slash (w : List Char) (hsub : hasSub embedPat w = true)
    (hend : endsWithL ['/'] w = false)
    (htrim : trimList (w ++ ['/']) = w ++ ['/']) :
    normList (w ++ ['/']) = w ++ ['/'] := by
  unfold normList
  rw [htrim, stripSlash_concat, if_neg (by simp [hsub]), if_pos hend]

theorem normList_idempotent (x : List Char)
    (hnd : endsWithL ('/' :: '/' :: []) (trimList x) = false) :
    normList (normList x) = normList x := by
  by_cases h1 : hasSub embedPat (stripSlash (trimList x)) = false
  · have hy : normList x = stripSlash (trimList x) ++ "/embed/".data := by
      unfold normList
      rw [if_pos h1]
    rw [hy]
    refine normList_fix_embed _ ?_
    rw [← hy]
    exact normList_trimmed x
  · by_cases h2 : endsWithL ['/'] (stripSlash (trimList x)) = false
    · have hy : normList x = stripSlash (trimList x) ++ ['/'] := by
        unfold normList
        rw [if_neg h1, if_pos h2]
      rw [hy]
      refine normList_fix_slash _ ?_ h2 ?_
      · cases hb : hasSub embedPat (stripSlash (trimList x)) with
        | false => exact absurd hb h1
        | true => rfl
      · rw [← hy]
        exact normList_trimmed x
    · exfalso
      have h2t : endsWithL ['/'] (stripSlash (trimList x)) = true := by
        cases hb : endsWithL ['/'] (stripSlash (trimList x)) with
        | false => exact absurd hb h2
        | true => rfl
      by_cases hT : endsWithL ['/'] (trimList x) = true
      · have hts : stripSlash (trimList x) = (trimList x).dropLast := by
          unfold stripSlash
          rw [if_pos hT]
        have hlast : (trimList x).getLast? = some '/' := (endsWith_single '/' _).mp hT
        have hTeq : (trimList x).dropLast ++ ['/'] = trimList x :=
          List.dropLast_append_getLast? '/' (Option.mem_def.mpr hlast)
        have hlast2 : ((trimList x).dropLast).getLast? = some '/' := by
          rw [← hts]
          exact (endsWith_single '/' _).mp h2t
        have hTeq2 : ((trimList x).dropLast).dropLast ++ ['/'] = (trimList x).dropLast :=
          List.dropLast_append_getLast? '/' (Option.mem_def.mpr hlast2)
        have hfull : trimList x = (((trimList x).dropLast).dropLast ++ ['/']) ++ ['/'] := by
          rw [hTeq2, hTeq]
        rw [hfull, List.append_assoc] at hnd
        have h9 : (['/'] ++ ['/'] : List Char) = '/' :: '/' :: [] := rfl
        rw [h9, endsWithL_append] at hnd
        exact Bool.noConfusion hnd
      · have hts : stripSlash (trimList x) = trimList x := by
          unfold stripSlash
          rw [if_neg hT]
        rw [hts] at h2t
        exact hT h2t

/-- C8 amended: `normalizeInstagramUrl` is idempotent on every input whose
whitespace-trimmed form does not end in two consecutive slashes (for a
trimmed input that contains "/embed" and ends in "//" one application can
strip only one of the trailing slashes — see the counterexample). -/
theorem normalize_idempotent_no_double_slash (x : String)
    (hnd : endsWithL ('/' :: '/' :: []) (trimList x.data) = false) :
    normalizeInstagramUrl (normalizeInstagramUrl x) = normalizeInstagramUrl x := by
  show String.mk (normList (String.mk (normList x.data)).data) = String.mk (normList x.data)
  exact congrArg String.mk (normList_idempotent x.data hnd)

/-- Witness for the amended C8 at a concrete input. -/
theorem normalize_idempotent_no_double_slash_witness :
    normalizeInstagramUrl (normalizeInstagramUrl "https://instagram.com/p/ABC123") =
      normalizeInstagramUrl "https://instagram.com/p/ABC123" :=
  normalize_idempotent_no_double_slash "https://instagram.com/p/ABC123" (by decide)

/-! ## Claim C7: media-code extraction -/

theorem dropPref_eq_append (p s r : List Char) (h : dropPref p s = some r) : s = p ++ r := by
  induction p generalizing s with
  | nil =>
    rw [List.nil_append]
    exact Option.some.inj h
  | cons a ps ih =>
    cases s with
    | nil => exact Option.noConfusion h
    | cons c cs =>
      unfold dropPref at h
      by_cases hac : a = c
      · subst hac
        rw [if_pos rfl] at h
        have h2 := ih cs h
        rw [List.cons_append, ← h2]
      · rw [if_neg hac] at h
        exact Option.noConfusion h

theorem dropPref_self (p r : List Char) : dropPref p (p ++ r) = some r := by
  induction p with
  | nil => rfl
  | cons a ps ih => simp [dropPref, ih]

theorem branchDrop_eq_append (r r2 : List Char) (h : branchDrop r = some r2) :
    r = "p/".data ++ r2 ∨ r = "reel/".data ++ r2 := by
  unfold branchDrop at h
  cases hp : dropPref "p/".data r with
  | some q =>
    rw [hp] at h
    have hq : q = r2 := Option.some.inj h
    subst hq
    exact Or.inl (dropPref_eq_append _ _ _ hp)
  | none =>
    rw [hp] at h
    exact Or.inr (dropPref_eq_append _ _ _ h)

theorem matchAt_hasPref (s t : List Char) (h : matchAt s = some t) :
    hasPref "instagram.com/p/".data s = true ∨
    hasPref "instagram.com/reel/".data s = true := by
  unfold matchAt at h
  cases hd : dropPref igPat s with
  | none => rw [hd] at h; exact Option.noConfusion h
  | some r =>
    rw [hd] at h
    have h2 : (match branchDrop r with
        | some r2 =>
          if List.takeWhile tokenChar r2 = [] then none
          else some (List.takeWhile tokenChar r2)
        | none => none) = some t := h
    have hs : s = igPat ++ r := dropPref_eq_append _ _ _ hd
    cases hb : branchDrop r with
    | none => rw [hb] at h2; exact Option.noConfusion h2
    | some r2 =>
      rcases branchDrop_eq_append r r2 hb with hr | hr
      · left
        rw [hs, hr, ← List.append_assoc]
        rw [show igPat ++ "p/".data = "instagram.com/p/".data from rfl]
        exact hasPref_append_self _ _
      · right
        rw [hs, hr, ← List.append_assoc]
        rw [show igPat ++ "reel/".data = "instagram.com/reel/".data from rfl]
        exact hasPref_append_self _ _

theorem findMatch_hasSub (s t : List Char) (h : findMatch s = some t) :
    hasSub "instagram.com/p/".data s = true ∨
    hasSub "instagram.com/reel/".data s = true := by
  induction s with
  | nil => exact Option.noConfusion h
  | cons c cs ih =>
    unfold findMatch at h
    cases hm : matchAt (c :: cs) with
    | some t2 =>
      rcases matchAt_hasPref _ _ hm with hp | hp
      · left; unfold hasSub; rw [hp]; rfl
      · right; unfold hasSub; rw [hp]; rfl
    | none =>
      rw [hm] at h
      rcases ih h with hp | hp
      · left; unfold hasSub; rw [hp]; simp
      · right; unfold hasSub; rw [hp]; simp

/-- C7: `extractMediaCode` returns (without any possibility of raising — it
is a total function) the token following an "instagram.com/p/" or
"instagram.com/reel/" segment: it yields "ABC123" and "XYZ789" on the two
spec examples, and `none` for every URL containing neither segment. -/
theorem extractMediaCode_spec :
    extractMediaCode "https://instagram.com/p/ABC123/" = some "ABC123" ∧
    extractMediaCode "https://instagram.com/reel/XYZ789/" = some "XYZ789" ∧
    (∀ u : String, hasSub "instagram.com/p/".data u.data = false →
      hasSub "instagram.com/reel/".data u.data = false →
      extractMediaCode u = none) := by
  refine ⟨rfl, rfl, ?_⟩
  intro u h1 h2
  unfold extractMediaCode
  cases hm : findMatch u.data with
  | none => rfl
  | some t =>
    rcases findMatch_hasSub _ _ hm with hp | hp
    · rw [hp] at h1; exact Bool.noConfusion h1
    · rw [hp] at h2; exact Bool.noConfusion h2

/-- Witness for C7 at a concrete input: a URL with neither segment yields
`none`. -/
theorem extractMediaCode_spec_witness :
    extractMediaCode "https://example.com/watch?v=1" = none :=
  extractMediaCode_spec.2.2 "https://example.com/watch?v=1" (by decide) (by decide)

/-! ## Claim C10: normalization preserves the extracted media code -/

theorem takeWhile_append_nil (f : Char → Bool) (a b : List Char)
    (hb : b.takeWhile f = []) : (a ++ b).takeWhile f = a.takeWhile f := by
  induction a with
  | nil => simpa using hb
  | cons c a2 ih =>
    by_cases hc : f c <;> simp [List.takeWhile_cons, hc, ih]

theorem dropPref_none_iff (p s : List Char) :
    dropPref p s = none ↔ ∀ r, s ≠ p ++ r := by
  constructor
  · intro h r hr
    rw [hr, dropPref_self] at h
    exact Option.noConfusion h
  · intro h
    cases hd : dropPref p s with
    | none => rfl
    | some r => exact absurd (dropPref_eq_append _ _ _ hd) (h r)

theorem append_single_cases (a b q : List Char) (x : Char) (h : a ++ [x] = b ++ q) :
    (q = [] ∧ a ++ [x] = b) ∨ ∃ q2, q = q2 ++ [x] ∧ a = b ++ q2 := by
  rcases List.eq_nil_or_concat q with hq | ⟨q2, y, hq⟩
  · subst hq
    rw [List.append_nil] at h
    exact Or.inl ⟨rfl, h⟩
  · subst hq
    rw [List.concat_eq_append, ← List.append_assoc] at h
    have h2 : a.concat x = (b ++ q2).concat y := by
      rw [List.concat_eq_append, List.concat_eq_append]
      exact h
    rcases List.concat_inj.mp h2 with ⟨ha, hx⟩
    subst hx
    exact Or.inr ⟨q2, by rw [List.concat_eq_append], ha⟩

theorem takeWhile_single_nil (c : Char) (hc : tokenChar c = false) :
    List.takeWhile tokenChar [c] = [] := by
  simp [List.takeWhile_cons, hc]

theorem reel_ne_p_append (w q : List Char) : "reel/".data ++ w ≠ "p/".data ++ q := by
  intro h
  have h3 : 'r' :: ("eel/".data ++ w) = 'p' :: ("/".data ++ q) := h
  have h4 : 'r' = 'p' := by injection h3
  exact absurd h4 (by decide)

theorem matchAt_eq (s : List Char) :
    matchAt s = (dropPref igPat s).bind (fun r => (branchDrop r).bind tokOf) := by
  unfold matchAt tokOf
  cases hd : dropPref igPat s with
  | none => simp [hd]
  | some r =>
    simp only [hd, Option.some_bind]
    cases hb : branchDrop r with
    | none => simp [hb]
    | some r2 => simp [hb]

theorem matchAt_append_single (z : List Char) (c : Char) (hc : tokenChar c = false) :
    matchAt (z ++ [c]) = matchAt z := by
  rw [matchAt_eq, matchAt_eq]
  cases hd : dropPref igPat z with
  | some r =>
    have hz : z = igPat ++ r := dropPref_eq_append _ _ _ hd
    have hd2 : dropPref igPat (z ++ [c]) = some (r ++ [c]) := by
      rw [hz, List.append_assoc]
      exact dropPref_self _ _
    rw [hd2, Option.some_bind, Option.some_bind]
    cases hb : dropPref "p/".data r with
    | some r2 =>
      have hr : r = "p/".data ++ r2 := dropPref_eq_append _ _ _ hb
      have hbc : branchDrop (r ++ [c]) = some (r2 ++ [c]) := by
        unfold branchDrop
        rw [hr, List.append_assoc, dropPref_self]
      have hbr : branchDrop r = some r2 := by
        unfold branchDrop
        rw [hb]
      rw [hbc, hbr, Option.some_bind, Option.some_bind]
      unfold tokOf
      rw [takeWhile_append_nil _ _ _ (takeWhile_single_nil c hc)]
    | none =>
      cases hb2 : dropPref "reel/".data r with
      | some r2 =>
        have hr : r = "reel/".data ++ r2 := dropPref_eq_append _ _ _ hb2
        have hcombp : dropPref "p/".data (r ++ [c]) = none := by
          rw [dropPref_none_iff]
          intro q hq
          rw [hr, List.append_assoc] at hq
          exact reel_ne_p_append _ _ hq
        have hbc : branchDrop (r ++ [c]) = some (r2 ++ [c]) := by
          unfold branchDrop
          rw [hcombp, hr, List.append_assoc, dropPref_self]
        have hbr : branchDrop r = some r2 := by
          unfold branchDrop
          rw [hb, hb2]
        rw [hbc, hbr, Option.some_bind, Option.some_bind]
        unfold tokOf
        rw [takeWhile_append_nil _ _ _ (takeWhile_single_nil c hc)]
      | none =>
        have hbr : branchDrop r = none := by
          unfold branchDrop
          rw [hb, hb2]
        rw [hbr, Option.none_bind]
        cases hbc : branchDrop (r ++ [c]) with
        | none => rfl
        | some q =>
          rw [Option.some_bind]
          rcases branchDrop_eq_append _ _ hbc with hq | hq
          · rcases append_single_cases r "p/".data q c hq with ⟨hq0, hr2⟩ | ⟨q2, hq2, hr2⟩
            · subst hq0
              rfl
            · rw [hr2, dropPref_self] at hb
              exact Option.noConfusion hb
          · rcases append_single_cases r "reel/".data q c hq with ⟨hq0, hr2⟩ | ⟨q2, hq2, hr2⟩
            · subst hq0
              rfl
            · rw [hr2, dropPref_self] at hb2
              exact Option.noConfusion hb2
  | none =>
    rw [Option.none_bind]
    cases hf : dropPref igPat (z ++ [c]) with
    | none => rfl
    | some r =>
      rw [Option.some_bind]
      have hzc : z ++ [c] = igPat ++ r := dropPref_eq_append _ _ _ hf
      rcases append_single_cases z igPat r c hzc with ⟨hr0, hz2⟩ | ⟨r2, hr2, hz2⟩
      · subst hr0
        rfl
      · rw [hz2, dropPref_self] at hd
        exact Option.noConfusion hd

theorem ws_not_token (c : Char) (h : c.isWhitespace = true) : tokenChar c = false := by
  have h4 : c = ' ' ∨ c = '\t' ∨ c = '\r' ∨ c = '\n' := by
    simpa [Char.isWhitespace, or_assoc] using h
  rcases h4 with rfl | rfl | rfl | rfl <;> decide

theorem findMatch_append_single (core : List Char) (c : Char) (hc : tokenChar c = false) :
    findMatch (core ++ [c]) = findMatch core := by
  induction core with
  | nil =>
    have hm : matchAt [c] = none := by
      rw [show ([c] : List Char) = [] ++ [c] from rfl, matchAt_append_single [] c hc]
      rfl
    show (match matchAt [c] with
      | some t => some t
      | none => findMatch []) = findMatch []
    rw [hm]
  | cons x core2 ih =>
    show findMatch (x :: (core2 ++ [c])) = findMatch (x :: core2)
    have hm : matchAt (x :: (core2 ++ [c])) = matchAt (x :: core2) := by
      rw [show x :: (core2 ++ [c]) = (x :: core2) ++ [c] from rfl]
      exact matchAt_append_single _ c hc
    unfold findMatch
    rw [hm]
    cases matchAt (x :: core2) with
    | some t => rfl
    | none => exact ih

theorem findMatch_append_nontok (tail : List Char) :
    ∀ core, (∀ c ∈ tail, tokenChar c = false) →
      findMatch (core ++ tail) = findMatch core := by
  induction tail with
  | nil => intro core _; rw [List.append_nil]
  | cons c t2 ih =>
    intro core h
    have hsplit : core ++ c :: t2 = (core ++ [c]) ++ t2 := by simp
    rw [hsplit, ih (core ++ [c]) (fun d hd => h d (List.mem_cons_of_mem _ hd)),
      findMatch_append_single core c (h c (List.mem_cons_self _ _))]

theorem findMatch_trimL (s : List Char) : findMatch (trimL s) = findMatch s := by
  induction s with
  | nil => rfl
  | cons a s2 ih =>
    unfold trimL at ih ⊢
    rw [List.dropWhile_cons]
    by_cases hw : a.isWhitespace
    · rw [if_pos (by simp [hw])]
      have hm : matchAt (a :: s2) = none := by
        rw [matchAt_eq]
        have hdn : dropPref igPat (a :: s2) = none := by
          rw [dropPref_none_iff]
          intro r hr
          have h3 : a :: s2 = 'i' :: ("nstagram.com/".data ++ r) := hr
          have h4 : a = 'i' := by injection h3
          subst h4
          exact absurd hw (by decide)
        rw [hdn, Option.none_bind]
      have hstep : findMatch (a :: s2) = findMatch s2 := by
        show (match matchAt (a :: s2) with
          | some t => some t
          | none => findMatch s2) = findMatch s2
        rw [hm]
      rw [ih, hstep]
    · rw [if_neg (by simp [hw])]

theorem findMatch_trimR (s : List Char) : findMatch (trimR s) = findMatch s := by
  conv_rhs => rw [trimR_append_ws s]
  rw [findMatch_append_nontok _ (trimR s)]
  intro c hc
  rw [List.mem_reverse] at hc
  exact ws_not_token c (List.mem_takeWhile_imp hc)

theorem findMatch_stripSlash (T : List Char) :
    findMatch (stripSlash T) = findMatch T := by
  unfold stripSlash
  by_cases he : endsWithL ['/'] T = true
  · rw [if_pos he]
    have hlast := (endsWith_single '/' T).mp he
    have hTeq : T.dropLast ++ ['/'] = T :=
      List.dropLast_append_getLast? '/' (Option.mem_def.mpr hlast)
    conv_rhs => rw [← hTeq]
    rw [findMatch_append_single _ '/' (by decide)]
  · rw [if_neg he]

theorem matchAt_append_of_some (z e : List Char) (t : List Char)
    (he : e.takeWhile tokenChar = []) (h : matchAt z = some t) :
    matchAt (z ++ e) = some t := by
  rw [matchAt_eq] at h ⊢
  cases hd : dropPref igPat z with
  | none => rw [hd, Option.none_bind] at h; exact Option.noConfusion h
  | some r =>
    rw [hd, Option.some_bind] at h
    have hz : z = igPat ++ r := dropPref_eq_append _ _ _ hd
    have hd2 : dropPref igPat (z ++ e) = some (r ++ e) := by
      rw [hz, List.append_assoc]
      exact dropPref_self _ _
    rw [hd2, Option.some_bind]
    cases hb : branchDrop r with
    | none => rw [hb, Option.none_bind] at h; exact Option.noConfusion h
    | some r2 =>
      rw [hb, Option.some_bind] at h
      rcases branchDrop_eq_append _ _ hb with hr | hr
      · have hbc : branchDrop (r ++ e) = some (r2 ++ e) := by
          unfold branchDrop
          rw [hr, List.append_assoc, dropPref_self]
        rw [hbc, Option.some_bind]
        unfold tokOf at h ⊢
        rw [takeWhile_append_nil _ _ _ he]
        exact h
      · have hcombp : dropPref "p/".data (r ++ e) = none := by
          rw [dropPref_none_iff]
          intro q hq
          rw [hr, List.append_assoc] at hq
          exact reel_ne_p_append _ _ hq
        have hbc : branchDrop (r ++ e) = some (r2 ++ e) := by
          unfold branchDrop
          rw [hcombp, hr, List.append_assoc, dropPref_self]
        rw [hbc, Option.some_bind]
        unfold tokOf at h ⊢
        rw [takeWhile_append_nil _ _ _ he]
        exact h

theorem tokOf_eq_none_iff (m : List Char) :
    tokOf m = none ↔ m.takeWhile tokenChar = [] := by
  unfold tokOf
  by_cases h : m.takeWhile tokenChar = [] <;> simp [h]

theorem tokOf_append_none (m e : List Char) (hm : m.takeWhile tokenChar = [])
    (he : e.takeWhile tokenChar = []) : tokOf (m ++ e) = none := by
  rw [tokOf_eq_none_iff, takeWhile_append_nil _ _ _ he, hm]

theorem branchDrop_p_pref (w : List Char) : branchDrop ("p/".data ++ w) = some w := by
  unfold branchDrop
  rw [dropPref_self]

theorem branchDrop_reel_pref (w : List Char) :
    branchDrop ("reel/".data ++ w) = some w := by
  unfold branchDrop
  have hp : dropPref "p/".data ("reel/".data ++ w) = none :=
    (dropPref_none_iff _ _).mpr (fun q hq => reel_ne_p_append _ _ hq)
  rw [hp, dropPref_self]


theorem append_single_right_inj (a b : List Char) (x : Char) (h : a ++ [x] = b ++ [x]) :
    a = b := by
  have h2 : a.concat x = b.concat x := by
    rw [List.concat_eq_append, List.concat_eq_append]
    exact h
  exact (List.concat_inj.mp h2).1

theorem matchAt_deadend (z : List Char)
    (h1 : matchAt z = none) (h2 : matchAt (z ++ "/embed/".data) ≠ none) :
    z = "instagram.com/p".data ∨ z = "instagram.com/reel".data := by
  rw [matchAt_eq] at h2
  cases hd : dropPref igPat (z ++ "/embed/".data) with
  | none => rw [hd, Option.none_bind] at h2; exact absurd rfl h2
  | some r =>
    rw [hd, Option.some_bind] at h2
    have hze : z ++ "/embed/".data = igPat ++ r := dropPref_eq_append _ _ _ hd
    rcases List.append_eq_append_iff.mp hze with ⟨a2, hig, hE⟩ | ⟨c2, hzc, hrc⟩
    · -- the fixed pattern head extends to or past the end of z
      exfalso
      cases a2 with
      | nil =>
        rw [List.append_nil] at hig
        rw [List.nil_append] at hE
        rw [← hE, show branchDrop "/embed/".data = none from by decide,
          Option.none_bind] at h2
        exact absurd rfl h2
      | cons e1 m2 =>
        have hE2 : '/' :: "embed/".data = e1 :: (m2 ++ r) := hE
        injection hE2 with he1 hE3
        subst he1
        cases m2 with
        | nil =>
          rw [List.nil_append] at hE3
          rw [← hE3, show branchDrop "embed/".data = none from by decide,
            Option.none_bind] at h2
          exact absurd rfl h2
        | cons e2 m3 =>
          have hE4 : 'e' :: "mbed/".data = e2 :: (m3 ++ r) := hE3
          injection hE4 with he2 _
          subst he2
          have hlen : z.length ≤ 12 := by
            have hl := congrArg List.length hig
            rw [show igPat.length = 14 from rfl] at hl
            simp only [List.length_append, List.length_cons] at hl
            omega
          have hget : igPat[z.length]? = some '/' := by
            rw [hig, List.getElem?_append_right (le_refl _)]
            simp
          have hno : ∀ n, n < 13 → igPat[n]? ≠ some '/' := by decide
          exact hno z.length (by omega) hget
    · -- z = igPat ++ c2
      rw [matchAt_eq] at h1
      have hdz : dropPref igPat z = some c2 := by
        rw [hzc]
        exact dropPref_self _ _
      rw [hdz, Option.some_bind] at h1
      subst hrc
      cases hb : dropPref "p/".data (c2 ++ "/embed/".data) with
      | some q =>
        have hbr : branchDrop (c2 ++ "/embed/".data) = some q := by
          unfold branchDrop
          rw [hb]
        have hq : c2 ++ "/embed/".data = "p/".data ++ q := dropPref_eq_append _ _ _ hb
        rcases List.append_eq_append_iff.mp hq with ⟨m, hpm, hEm⟩ | ⟨m, hcm, hqm⟩
        · -- "p/" = c2 ++ m and "/embed/" = m ++ q
          cases m with
          | nil =>
            exfalso
            rw [List.append_nil] at hpm
            rw [List.nil_append] at hEm
            rw [hbr, Option.some_bind, ← hEm] at h2
            exact h2 (by decide)
          | cons e1 m2 =>
            have hEm2 : '/' :: "embed/".data = e1 :: (m2 ++ q) := hEm
            injection hEm2 with he1 hEm3
            subst he1
            cases m2 with
            | nil =>
              -- m = ['/'], so c2 = "p" and z is the p dead end
              left
              have hc2 : c2 = "p".data := by
                refine append_single_right_inj c2 "p".data '/' ?_
                exact hpm.symm
              rw [hzc, hc2]
              rfl
            | cons e2 m3 =>
              exfalso
              have hEm4 : 'e' :: "mbed/".data = e2 :: (m3 ++ q) := hEm3
              injection hEm4 with he2 _
              subst he2
              have hlen : c2.length ≤ 0 := by
                have hl := congrArg List.length hpm
                rw [show ("p/".data).length = 2 from rfl] at hl
                simp only [List.length_append, List.length_cons] at hl
                omega
              have hget : "p/".data[c2.length]? = some '/' := by
                rw [hpm, List.getElem?_append_right (le_refl _)]
                simp
              have hno : ∀ n, n < 1 → "p/".data[n]? ≠ some '/' := by decide
              exact hno c2.length (by omega) hget
        · -- c2 = "p/" ++ m : the match was already complete inside z
          exfalso
          subst hcm
          rw [branchDrop_p_pref, Option.some_bind, tokOf_eq_none_iff] at h1
          rw [hbr, Option.some_bind, hqm,
            tokOf_append_none m _ h1 (by decide)] at h2
          exact absurd rfl h2
      | none =>
        cases hb2 : dropPref "reel/".data (c2 ++ "/embed/".data) with
        | none =>
          exfalso
          have hbn : branchDrop (c2 ++ "/embed/".data) = none := by
            unfold branchDrop
            rw [hb, hb2]
          rw [hbn, Option.none_bind] at h2
          exact absurd rfl h2
        | some q =>
          have hbr : branchDrop (c2 ++ "/embed/".data) = some q := by
            unfold branchDrop
            rw [hb, hb2]
          have hq : c2 ++ "/embed/".data = "reel/".data ++ q :=
            dropPref_eq_append _ _ _ hb2
          rcases List.append_eq_append_iff.mp hq with ⟨m, hpm, hEm⟩ | ⟨m, hcm, hqm⟩
          · -- "reel/" = c2 ++ m and "/embed/" = m ++ q
            cases m with
            | nil =>
              exfalso
              rw [List.append_nil] at hpm
              rw [List.nil_append] at hEm
              rw [hbr, Option.some_bind, ← hEm] at h2
              exact h2 (by decide)
            | cons e1 m2 =>
              have hEm2 : '/' :: "embed/".data = e1 :: (m2 ++ q) := hEm
              injection hEm2 with he1 hEm3
              subst he1
              cases m2 with
              | nil =>
                -- m = ['/'], so c2 = "reel" and z is the reel dead end
                right
                have hc2 : c2 = "reel".data := by
                  refine append_single_right_inj c2 "reel".data '/' ?_
                  exact hpm.symm
                rw [hzc, hc2]
                rfl
              | cons e2 m3 =>
                exfalso
                have hEm4 : 'e' :: "mbed/".data = e2 :: (m3 ++ q) := hEm3
                injection hEm4 with he2 _
                subst he2
                have hlen : c2.length ≤ 3 := by
                  have hl := congrArg List.length hpm
                  rw [show ("reel/".data).length = 5 from rfl] at hl
                  simp only [List.length_append, List.length_cons] at hl
                  omega
                have hget : "reel/".data[c2.length]? = some '/' := by
                  rw [hpm, List.getElem?_append_right (le_refl _)]
                  simp
                have hno : ∀ n, n < 4 → "reel/".data[n]? ≠ some '/' := by decide
                exact hno c2.length (by omega) hget
          · -- c2 = "reel/" ++ m
            exfalso
            subst hcm
            rw [branchDrop_reel_pref, Option.some_bind, tokOf_eq_none_iff] at h1
            rw [hbr, Option.some_bind, hqm,
              tokOf_append_none m _ h1 (by decide)] at h2
            exact absurd rfl h2

theorem findMatch_append_embed (xs : List Char) (t : List Char)
    (h : findMatch xs = some t) :
    findMatch (xs ++ "/embed/".data) = some t := by
  induction xs with
  | nil => exact Option.noConfusion h
  | cons x xs2 ih =>
    have hcons : (x :: xs2) ++ "/embed/".data = x :: (xs2 ++ "/embed/".data) := rfl
    cases hm : matchAt (x :: xs2) with
    | some t2 =>
      have ht : t2 = t := by
        have h2 : (match matchAt (x :: xs2) with
          | some t3 => some t3
          | none => findMatch xs2) = some t := h
        rw [hm] at h2
        exact Option.some.inj h2
      subst ht
      have hm2 : matchAt ((x :: xs2) ++ "/embed/".data) = some t2 :=
        matchAt_append_of_some _ _ _ (by decide) hm
      show (match matchAt (x :: (xs2 ++ "/embed/".data)) with
        | some t3 => some t3
        | none => findMatch (xs2 ++ "/embed/".data)) = some t2
      rw [← hcons, hm2]
    | none =>
      have h2 : findMatch xs2 = some t := by
        have h3 : (match matchAt (x :: xs2) with
          | some t3 => some t3
          | none => findMatch xs2) = some t := h
        rw [hm] at h3
        exact h3
      by_cases hm2 : matchAt ((x :: xs2) ++ "/embed/".data) = none
      · show (match matchAt (x :: (xs2 ++ "/embed/".data)) with
          | some t3 => some t3
          | none => findMatch (xs2 ++ "/embed/".data)) = some t
        rw [← hcons, hm2]
        exact ih h2
      · exfalso
        rcases matchAt_deadend _ hm hm2 with hz | hz
        · have hxs : xs2 = "nstagram.com/p".data := by
            have h3 : x :: xs2 = 'i' :: "nstagram.com/p".data := hz
            injection h3 with _ h4
          rw [hxs, show findMatch "nstagram.com/p".data = none from by decide] at h2
          exact Option.noConfusion h2
        · have hxs : xs2 = "nstagram.com/reel".data := by
            have h3 : x :: xs2 = 'i' :: "nstagram.com/reel".data := hz
            injection h3 with _ h4
          rw [hxs, show findMatch "nstagram.com/reel".data = none from by decide] at h2
          exact Option.noConfusion h2

/-- C10: normalization preserves the extracted media code: whenever
`extractMediaCode` returns a token on a raw URL, it returns the same token
on the normalized URL. -/
theorem extractMediaCode_normalize_preserved (u t : String)
    (h : extractMediaCode u = some t) :
    extractMediaCode (normalizeInstagramUrl u) = some t := by
  unfold extractMediaCode at h ⊢
  cases hf : findMatch u.data with
  | none => rw [hf] at h; exact Option.noConfusion h
  | some tl =>
    rw [hf] at h
    have hdata : (normalizeInstagramUrl u).data = normList u.data := rfl
    rw [hdata]
    have htrim : findMatch (trimList u.data) = findMatch u.data := by
      unfold trimList
      rw [findMatch_trimR, findMatch_trimL]
    have hstrip : findMatch (stripSlash (trimList u.data)) = some tl := by
      rw [findMatch_stripSlash, htrim, hf]
    unfold normList
    by_cases h1 : hasSub embedPat (stripSlash (trimList u.data)) = false
    · rw [if_pos h1, findMatch_append_embed _ tl hstrip]
      exact h
    · rw [if_neg h1]
      by_cases h2 : endsWithL ['/'] (stripSlash (trimList u.data)) = false
      · rw [if_pos h2, findMatch_append_single _ '/' (by decide), hstrip]
        exact h
      · rw [if_neg h2, hstrip]
        exact h

/-- Witness for C10 at a concrete input. -/
theorem extractMediaCode_normalize_preserved_witness :
    extractMediaCode (normalizeInstagramUrl "https://instagram.com/p/ABC123") =
      some "ABC123" :=
  extractMediaCode_normalize_preserved "https://instagram.com/p/ABC123" "ABC123" rfl
